import Mathlib

/- Verification of the esxsnmp persistence tier
   (src/src/python/esxsnmp/persist.py): a shallow embedding of the
   memcached queue, the persist router, the multi-worker sharding, the
   TSDB persister's value pipeline, the Infinera result rewriting and the
   history-table reconciliation algorithm, together with theorems that
   settle the specification's claims about them. -/

set_option maxRecDepth 8000

namespace Esxsnmp

/-- Python values as they occur in persist.py attribute dictionaries and
poll data: strings, integers (after an `int()` coercion), and `None`
(for example an empty `ifPhysAddress` becomes `None`). -/
inductive PyVal where
  | str : String → PyVal
  | int : Int → PyVal
  | pynone : PyVal
deriving DecidableEq

/-- Association-list lookup: the model of Python dict indexing (`d[k]`
returning a value if present) and of attribute lookup on row objects. -/
def alistGet {α β : Type} [DecidableEq α] (k : α) : List (α × β) → Option β
  | [] => Option.none
  | p :: ps => if p.1 = k then some p.2 else alistGet k ps

/-- Association-list update: the model of Python dict key assignment. -/
def alistSet {α β : Type} [DecidableEq α] (k : α) (v : β) : List (α × β) → List (α × β)
  | [] => [(k, v)]
  | p :: ps => if p.1 = k then (k, v) :: ps else p :: alistSet k v ps

/-- Association-list deletion: the model of Python `del d[k]` (removes the
entry for `k`; a no-op here when `k` is absent). -/
def alistDel {α β : Type} [DecidableEq α] (k : α) : List (α × β) → List (α × β)
  | [] => []
  | p :: ps => if p.1 = k then ps else p :: alistDel k ps

theorem alistGet_mem {α β : Type} [DecidableEq α] {k : α} {v : β} :
    ∀ {l : List (α × β)}, alistGet k l = some v → (k, v) ∈ l := by
  intro l
  induction l with
  | nil => intro h; simp [alistGet] at h
  | cons p ps ih =>
      intro h
      obtain ⟨a, b⟩ := p
      by_cases hp : a = k
      · simp [alistGet, hp] at h
        subst hp
        subst h
        exact List.mem_cons_self _ _
      · simp [alistGet, hp] at h
        exact List.mem_cons_of_mem _ (ih h)

theorem alistGet_mem_keys {α β : Type} [DecidableEq α] {k : α} {v : β}
    {l : List (α × β)} (h : alistGet k l = some v) : k ∈ l.map Prod.fst := by
  have := alistGet_mem h
  exact List.mem_map.2 ⟨(k, v), this, rfl⟩

theorem alistGet_of_mem_nodup {α β : Type} [DecidableEq α] {k : α} {v : β} :
    ∀ {l : List (α × β)}, (k, v) ∈ l → (l.map Prod.fst).Nodup →
      alistGet k l = some v := by
  intro l
  induction l with
  | nil => intro h _; simp at h
  | cons p ps ih =>
      intro hmem hnd
      rw [List.map_cons, List.nodup_cons] at hnd
      rcases List.mem_cons.1 hmem with heq | hmem'
      · rw [← heq]
        simp [alistGet]
      · have hk : p.1 ≠ k := by
          intro hpk
          apply hnd.1
          rw [hpk]
          exact List.mem_map.2 ⟨(k, v), hmem', rfl⟩
        simp only [alistGet, if_neg hk]
        exact ih hmem' hnd.2

theorem alistDel_sublist {α β : Type} [DecidableEq α] (k : α) :
    ∀ (l : List (α × β)), List.Sublist (alistDel k l) l := by
  intro l
  induction l with
  | nil => simp [alistDel]
  | cons p ps ih =>
      by_cases hp : p.1 = k
      · simp only [alistDel, if_pos hp]
        exact List.sublist_cons_self p ps
      · simp only [alistDel, if_neg hp]
        exact List.Sublist.cons₂ p ih

theorem mem_alistDel_of_ne {α β : Type} [DecidableEq α] {k k' : α} {v : β} :
    ∀ {l : List (α × β)}, (k', v) ∈ l → k' ≠ k → (k', v) ∈ alistDel k l := by
  intro l
  induction l with
  | nil => intro h _; simp at h
  | cons p ps ih =>
      intro hmem hne
      by_cases hp : p.1 = k
      · rcases List.mem_cons.1 hmem with heq | hmem'
        · exact absurd (by rw [← heq] at hp; exact hp) hne
        · simpa [alistDel, hp] using hmem'
      · rcases List.mem_cons.1 hmem with heq | hmem'
        · rw [heq]
          simp only [alistDel, if_neg hp]
          exact List.mem_cons_self _ _
        · simp only [alistDel, if_neg hp]
          exact List.mem_cons_of_mem _ (ih hmem' hne)

theorem map_fst_alistDel {α β : Type} [DecidableEq α] (k : α) :
    ∀ (l : List (α × β)), (alistDel k l).map Prod.fst = (l.map Prod.fst).erase k := by
  intro l
  induction l with
  | nil => simp [alistDel]
  | cons p ps ih =>
      by_cases hp : p.1 = k
      · simp [alistDel, hp, List.erase_cons]
      · simp [alistDel, hp, List.erase_cons, ih]

theorem alistDel_length {α β : Type} [DecidableEq α] {k : α} {v : β} :
    ∀ {l : List (α × β)}, alistGet k l = some v →
      (alistDel k l).length + 1 = l.length := by
  intro l
  induction l with
  | nil => intro h; simp [alistGet] at h
  | cons p ps ih =>
      intro h
      by_cases hp : p.1 = k
      · simp [alistDel, hp]
      · simp only [alistGet, if_neg hp] at h
        simp [alistDel, hp, ih h]

/-! ## The memcached persistence queue (persist.py lines 677-745) -/

/-- External state of one memcached-backed queue `Q`: the two counters
`_mcpq_Q_last_added` and `_mcpq_Q_last_read`, and the sparse payload map
`_mcpq_Q_n ↦ payload` (`none` models an absent memcached key). -/
structure MemcachedPersistQueue (β : Type) where
  last_added : Nat
  last_read : Nat
  store : Nat → Option β

/-- `__len__` (lines 737-741): `last_added - last_read`, clamped at zero
(Nat subtraction performs exactly the `if n < 0: n = 0` clamp). -/
def MemcachedPersistQueue.len {β : Type} (q : MemcachedPersistQueue β) : Nat :=
  q.last_added - q.last_read

/-- `put` (lines 714-721): serialize the value; on a truthy serialization
atomically increment `last_added` and write the payload at the resulting
sequence number; on a falsy serialization only log.  The serializer is a
parameter (`none` = falsy result of `self.serialize`). -/
def MemcachedPersistQueue.put {α β : Type} (ser : α → Option β)
    (q : MemcachedPersistQueue β) (v : α) : MemcachedPersistQueue β :=
  match ser v with
  | some s =>
      { last_added := q.last_added + 1
        last_read := q.last_read
        store := fun n => if n = q.last_added + 1 then some s else q.store n }
  | Option.none => q

/-- The queue state after a `get` consumes sequence number
`last_read + 1`: the counter is incremented and the payload at the
consumed sequence number deleted (`self.mc.delete(k)`). -/
def MemcachedPersistQueue.consume {β : Type} (q : MemcachedPersistQueue β) :
    MemcachedPersistQueue β :=
  { last_added := q.last_added
    last_read := q.last_read + 1
    store := fun n => if n = q.last_read + 1 then Option.none else q.store n }

/-- `get` (lines 723-735): return None when `len(self) <= 0`; otherwise
increment `last_read`, fetch the payload at that sequence number, delete
it, and decode.  A falsy fetched payload (`none`: the memcached key is
missing) is logged and yields None while the sequence number stays
consumed. -/
def MemcachedPersistQueue.get {α β : Type} (deser : β → α)
    (q : MemcachedPersistQueue β) : Option α × MemcachedPersistQueue β :=
  if q.len ≤ 0 then (Option.none, q)
  else
    match q.store (q.last_read + 1) with
    | some s => (some (deser s), q.consume)
    | Option.none => (Option.none, q.consume)

/-- Modelled from the spec's words for claim C6, to be compared with
`MemcachedPersistQueue.get`: "`get` returns empty when `len()` is zero;
otherwise it atomically increments `last_read`, fetches the payload at
that sequence number, deletes it, and returns the decoded value.  If
decoding fails the queue logs and returns empty for that slot (the
sequence number is consumed)." -/
def MemcachedPersistQueue.getSpec {α β : Type} (deser : β → α)
    (q : MemcachedPersistQueue β) : Option α × MemcachedPersistQueue β :=
  if q.len = 0 then (Option.none, q)
  else
    match q.store (q.last_read + 1) with
    | some s => (some (deser s), q.consume)
    | Option.none => (Option.none, q.consume)

/-- `reset` (lines 743-745). -/
def MemcachedPersistQueue.reset {β : Type} (q : MemcachedPersistQueue β) :
    MemcachedPersistQueue β :=
  { q with last_added := 0, last_read := 0 }

/-- A sequence of `put` calls by the single producer. -/
def MemcachedPersistQueue.putAll {α β : Type} (ser : α → Option β)
    (q : MemcachedPersistQueue β) : List α → MemcachedPersistQueue β
  | [] => q
  | v :: vs => (q.put ser v).putAll ser vs

/-- A sequence of `n` `get` calls by the single consumer, collecting the
returned values in order. -/
def MemcachedPersistQueue.getAll {α β : Type} (deser : β → α)
    (q : MemcachedPersistQueue β) : Nat → List (Option α) × MemcachedPersistQueue β
  | 0 => ([], q)
  | n + 1 =>
      let p := q.get deser
      let t := p.2.getAll deser n
      (p.1 :: t.1, t.2)

/-- The queue state `q` holds exactly the decoded values `l`, in FIFO
positions `last_read+1 .. last_added`. -/
def QueueRep {α β : Type} (deser : β → α) (q : MemcachedPersistQueue β)
    (l : List α) : Prop :=
  q.last_added = q.last_read + l.length ∧
  ∀ i : Nat, i < l.length →
    ∃ s, q.store (q.last_read + 1 + i) = some s ∧ l[i]? = some (deser s)

theorem QueueRep.put {α β : Type} {deser : β → α} {q : MemcachedPersistQueue β}
    {l : List α} (hrep : QueueRep deser q l) {ser : α → Option β} {v : α} {s : β}
    (hs : ser v = some s) (hrt : deser s = v) :
    QueueRep deser (q.put ser v) (l ++ [v]) := by
  obtain ⟨hlen, hstore⟩ := hrep
  unfold MemcachedPersistQueue.put
  rw [hs]
  constructor
  · simp only [List.length_append, List.length_cons, List.length_nil]
    omega
  · intro i hi
    simp only [List.length_append, List.length_cons, List.length_nil] at hi
    by_cases hil : i < l.length
    · obtain ⟨t, ht, hdt⟩ := hstore i hil
      refine ⟨t, ?_, ?_⟩
      · have hne : q.last_read + 1 + i ≠ q.last_added + 1 := by omega
        simp only [if_neg hne]
        exact ht
      · rw [List.getElem?_append_left hil]
        exact hdt
    · have hieq : i = l.length := by omega
      subst hieq
      refine ⟨s, ?_, ?_⟩
      · have heq : q.last_read + 1 + l.length = q.last_added + 1 := by omega
        simp only [if_pos heq]
      · rw [List.getElem?_concat_length, hrt]

theorem QueueRep.get_cons {α β : Type} {deser : β → α} {q : MemcachedPersistQueue β}
    {v : α} {l : List α} (hrep : QueueRep deser q (v :: l)) :
    (q.get deser).1 = some v ∧ QueueRep deser (q.get deser).2 l := by
  obtain ⟨hlen, hstore⟩ := hrep
  simp only [List.length_cons] at hlen
  have hqlen : ¬ q.len ≤ 0 := by
    simp only [MemcachedPersistQueue.len]
    omega
  obtain ⟨s, hs, hds⟩ := hstore 0 (by simp)
  rw [Nat.add_zero] at hs
  simp only [List.getElem?_cons_zero, Option.some.injEq] at hds
  have hrep' : QueueRep deser q.consume l := by
    constructor
    · show q.last_added = q.last_read + 1 + l.length
      omega
    · intro i hi
      obtain ⟨t, ht, hdt⟩ := hstore (i + 1) (by simpa using hi)
      refine ⟨t, ?_, ?_⟩
      · show (if q.last_read + 1 + 1 + i = q.last_read + 1 then Option.none else
            q.store (q.last_read + 1 + 1 + i)) = some t
        rw [if_neg (by omega)]
        have harith : q.last_read + 1 + (i + 1) = q.last_read + 1 + 1 + i := by omega
        rw [← harith]
        exact ht
      · simpa using hdt
  unfold MemcachedPersistQueue.get
  rw [if_neg hqlen, hs]
  exact ⟨congrArg some hds.symm, hrep'⟩

theorem QueueRep.putAll {α β : Type} {deser : β → α} {ser : α → Option β}
    {q : MemcachedPersistQueue β} {l : List α} {vs : List α}
    (hrep : QueueRep deser q l)
    (hvs : ∀ v ∈ vs, ∃ s, ser v = some s ∧ deser s = v) :
    QueueRep deser (q.putAll ser vs) (l ++ vs) := by
  induction vs generalizing q l with
  | nil => simpa using hrep
  | cons v vs ih =>
      obtain ⟨s, hs, hrt⟩ := hvs v (List.mem_cons_self _ _)
      have h1 : QueueRep deser (q.put ser v) (l ++ [v]) := hrep.put hs hrt
      have h2 := ih h1 (fun w hw => hvs w (List.mem_cons_of_mem _ hw))
      simpa [MemcachedPersistQueue.putAll, List.append_assoc] using h2

theorem QueueRep.getAll {α β : Type} {deser : β → α}
    {q : MemcachedPersistQueue β} {l : List α} (hrep : QueueRep deser q l) :
    (q.getAll deser l.length).1 = l.map some := by
  induction l generalizing q with
  | nil => simp [MemcachedPersistQueue.getAll]
  | cons v l ih =>
      obtain ⟨h1, h2⟩ := hrep.get_cons
      simp only [List.length_cons, MemcachedPersistQueue.getAll, List.map_cons]
      rw [h1, ih h2]

/-- Claim C1 (Queue FIFO): for every sequence of n `put`s of values
`vs` on a single `MemcachedPersistQueue` starting empty
(`last_added = last_read`), followed by n `get`s, with no other producer
or consumer, the returned values are `vs` in order (each value
round-tripping through serialization, which is assumed faithful on the
values put). -/
theorem queue_fifo {α β : Type} (ser : α → Option β) (deser : β → α)
    (q : MemcachedPersistQueue β) (vs : List α)
    (hq : q.last_added = q.last_read)
    (hvs : ∀ v ∈ vs, ∃ s, ser v = some s ∧ deser s = v) :
    ((q.putAll ser vs).getAll deser vs.length).1 = vs.map some := by
  have hrep0 : QueueRep deser q [] := by
    refine ⟨by simpa using hq, ?_⟩
    intro i hi
    simp at hi
  have h := hrep0.putAll hvs
  rw [List.nil_append] at h
  exact h.getAll

/-- Witness for C1: three values through a concrete fresh queue. -/
theorem queue_fifo_witness :
    (((⟨0, 0, fun _ => Option.none⟩ : MemcachedPersistQueue Nat).putAll some
        [3, 1, 2]).getAll id 3).1 = [some 3, some 1, some 2] := by
  have h := queue_fifo some id (⟨0, 0, fun _ => Option.none⟩ : MemcachedPersistQueue Nat)
    [3, 1, 2] rfl (by intro v hv; exact ⟨v, rfl, rfl⟩)
  simpa using h

/-- Claim C6 (Queue get semantics): `get` coincides with the spec's
description (empty on `len() = 0`; otherwise increment `last_read`,
fetch and delete the payload at that sequence number, return the decoded
value, and on a decode failure log, return empty and keep the sequence
number consumed), and it returns empty with an unchanged state exactly
when `len()` is zero. -/
theorem queue_get_semantics {α β : Type} (deser : β → α)
    (q : MemcachedPersistQueue β) :
    q.get deser = q.getSpec deser ∧
    (q.len = 0 ↔ q.get deser = (Option.none, q)) := by
  constructor
  · unfold MemcachedPersistQueue.get MemcachedPersistQueue.getSpec
    rcases Nat.eq_zero_or_pos q.len with h | h
    · rw [if_pos (by omega), if_pos h]
    · rw [if_neg (by omega), if_neg (by omega)]
  · constructor
    · intro h
      unfold MemcachedPersistQueue.get
      rw [if_pos (by omega)]
    · intro h
      by_contra hne
      have hpos : 0 < q.len := Nat.pos_of_ne_zero hne
      have hsnd : (q.get deser).2 = q.consume := by
        unfold MemcachedPersistQueue.get
        rw [if_neg (by omega)]
        cases q.store (q.last_read + 1) <;> rfl
      rw [h] at hsnd
      have h2 := congrArg MemcachedPersistQueue.last_read hsnd
      simp only [MemcachedPersistQueue.consume] at h2
      omega

/-! ## PollResult and the persist router (persist.py lines 48-97, 804-832) -/

/-- PollResult record (persist.py lines 48-97): the six fields set by
`__init__`.  The data and metadata payloads are opaque at this level, so
they are type parameters. -/
structure PollResult (δ μ : Type) where
  oidset_name : String
  device_name : String
  oid_name : String
  timestamp : Nat
  data : δ
  metadata : μ
deriving DecidableEq

/-- Python `str.lower()` for the ASCII oidset/queue names routed here. -/
def pyLower (s : String) : String := ⟨s.data.map Char.toLower⟩

/-- The per-target loop of `MemcachedPersistHandler.put` (lines 826-832).
Each iteration looks the queue name up in `self.queues`; on a miss the
`except KeyError` arm only logs, and the following `q.put(result)` still
runs with the *previous* binding of `q` (the `Option String` accumulator;
`none` = `q` has never been bound, so a NameError escapes, modelled as
the `none` result).  Returns the names of the queues that actually
receive the result, in order. -/
def routeLoop (isQueue : String → Bool) : Option String → List String → Option (List String)
  | _, [] => some []
  | qbind, qname :: rest =>
      match if isQueue qname then some qname else qbind with
      | Option.none => Option.none
      | some qn => (routeLoop isQueue (some qn) rest).map (fun es => qn :: es)

/-- `MemcachedPersistHandler.put` (lines 819-832): lower-case the
result's oidset name and look it up in `config.persist_map`; on a
`KeyError` log at error level and drop (`some []`: no queue touched);
otherwise run the enqueue loop over the mapped queue names.
`some events` lists the queues that received the result; `none` is an
uncaught NameError escaping `put`. -/
def MemcachedPersistHandler.put {δ μ : Type} (persist_map : String → Option (List String))
    (isQueue : String → Bool) (r : PollResult δ μ) : Option (List String) :=
  match persist_map (pyLower r.oidset_name) with
  | Option.none => some []
  | some qnames => routeLoop isQueue Option.none qnames

/-- The persist_map of the C3 counterexample: oidset `x` is routed to the
queue list `["nosuch", "q1"]` whose first name is not a constructed
queue. -/
def c3map : String → Option (List String) :=
  fun s => if s = "x" then some ["nosuch", "q1"] else Option.none

/-- A poll result whose lower-cased oidset name `x` is a key of `c3map`. -/
def c3result : PollResult Unit Unit := ⟨"x", "d", "o", 0, (), ()⟩

/-- Claim C3 counterexample: with constructed queues `{q1}` and
`persist_map = {x ↦ [nosuch, q1]}`, the result's lower-cased oidset name
is a key of persist_map and `q1` is a queue named in the mapped list, yet
`put` enqueues on no queue at all: the `except KeyError` arm for `nosuch`
only logs, and the following `q.put(result)` hits the unbound name `q`
(a NameError, the `none` outcome), so `q1` never receives the result —
refuting the claim that every queue named in the mapped list is
enqueued. -/
theorem router_total_coverage_cex :
    MemcachedPersistHandler.put c3map (fun s => s == "q1") c3result = Option.none := by
  decide

theorem routeLoop_all_known (isQueue : String → Bool) :
    ∀ (qnames : List String) (qbind : Option String),
      (∀ n ∈ qnames, isQueue n = true) →
      routeLoop isQueue qbind qnames = some qnames := by
  intro qnames
  induction qnames with
  | nil => intro qbind h; rfl
  | cons qname rest ih =>
      intro qbind h
      have hq : isQueue qname = true := h qname (List.mem_cons_self _ _)
      simp only [routeLoop, hq, if_true]
      rw [ih (some qname) (fun n hn => h n (List.mem_cons_of_mem _ hn))]
      rfl

/-- Claim C3 amended (router coverage): for every PollResult whose
lower-cased oidset_name is a key of persist_map *and whose mapped list
names only constructed queues*, `put` enqueues the result on every queue
in the mapped list, in order; for every PollResult whose lower-cased
oidset_name is not a key of persist_map, the result is dropped and no
queue is mutated (this miss being the only dropping rule outside
explicit failure).  When a mapped name is not a constructed queue the
code instead logs and then calls `q.put` on the stale previous binding
of `q` (or raises NameError), which is what the counterexample
exhibits. -/
theorem router_total_coverage_amended {δ μ : Type}
    (persist_map : String → Option (List String)) (isQueue : String → Bool)
    (r : PollResult δ μ) :
    (∀ qnames, persist_map (pyLower r.oidset_name) = some qnames →
        (∀ n ∈ qnames, isQueue n = true) →
        MemcachedPersistHandler.put persist_map isQueue r = some qnames) ∧
    (persist_map (pyLower r.oidset_name) = Option.none →
        MemcachedPersistHandler.put persist_map isQueue r = some []) := by
  constructor
  · intro qnames hmap hall
    unfold MemcachedPersistHandler.put
    rw [hmap]
    exact routeLoop_all_known isQueue qnames Option.none hall
  · intro hmap
    unfold MemcachedPersistHandler.put
    rw [hmap]

/-- Witness for the amended C3 at a concrete configuration: a hit on
`persist_map` (with upper-case oidset name `X` lowered to `x`) enqueues
on both mapped queues, and a miss drops the result. -/
theorem router_total_coverage_amended_witness :
    MemcachedPersistHandler.put (fun s => if s = "x" then some ["q1", "q2"] else Option.none)
      (fun s => s == "q1" || s == "q2") (⟨"X", "d", "o", 0, (), ()⟩ : PollResult Unit Unit)
      = some ["q1", "q2"] ∧
    MemcachedPersistHandler.put (fun s => if s = "x" then some ["q1", "q2"] else Option.none)
      (fun s => s == "q1" || s == "q2") (⟨"y", "d", "o", 0, (), ()⟩ : PollResult Unit Unit)
      = some [] := by
  constructor
  · exact (router_total_coverage_amended _ _ _).1 ["q1", "q2"] (by decide) (by decide)
  · exact (router_total_coverage_amended _ _ _).2 (by decide)

/-! ## The multi-worker queue (persist.py lines 769-801) -/

/-- Sharding state of a `MultiWorkerQueue`: the queue-name stem passed to
`__init__` (`self.qprefix` in the source; renamed here), the number of
sibling queues, the round-robin cursor and the sticky key → ordinal
map. -/
structure MultiWorkerQueue where
  qpfx : String
  num_workers : Nat
  cur_worker : Nat
  worker_map : List (String × Nat)
deriving DecidableEq

/-- `'%s_%d' % (self.qprefix, i)`: the name of sibling queue `i`. -/
def mkWorkerName (qp : String) (i : Nat) : String := qp ++ "_" ++ toString i

/-- `MultiWorkerQueue.__init__` (lines 770-781): cursor starts at 1,
empty worker map. -/
def MultiWorkerQueue.init (qp : String) (n : Nat) : MultiWorkerQueue :=
  ⟨qp, n, 1, []⟩

/-- The names of the sibling queues built in `__init__`
(`for i in range(1, num_workers + 1)`). -/
def MultiWorkerQueue.queueNames (q : MultiWorkerQueue) : List String :=
  (List.range' 1 q.num_workers).map (mkWorkerName q.qpfx)

/-- The ordinal-selection core of `get_worker` (lines 783-796): a hit in
`worker_map` reuses the recorded ordinal; a miss records `cur_worker`,
advances the cursor and wraps it past `num_workers` back to 1. -/
def MultiWorkerQueue.assign (q : MultiWorkerQueue) (k : String) : Nat × MultiWorkerQueue :=
  match alistGet k q.worker_map with
  | some w => (w, q)
  | Option.none =>
      (q.cur_worker,
        { q with worker_map := (k, q.cur_worker) :: q.worker_map,
                 cur_worker := if q.num_workers < q.cur_worker + 1 then 1
                               else q.cur_worker + 1 })

/-- `get_worker`: the sticky lookup on the composite key
`oidset_name + ":" + device_name`, returning the sibling queue name. -/
def MultiWorkerQueue.get_worker (q : MultiWorkerQueue)
    (oidset_name device_name : String) : String × MultiWorkerQueue :=
  ((mkWorkerName q.qpfx (q.assign (oidset_name ++ ":" ++ device_name)).1),
    (q.assign (oidset_name ++ ":" ++ device_name)).2)

/-- A sequence of `get_worker`/`put` calls on one MultiWorkerQueue
instance (each `put` calls `get_worker` and then enqueues; only
`get_worker` touches the sharding state), with the chosen queue names
collected in order. -/
def MultiWorkerQueue.runGetWorkers (q : MultiWorkerQueue) :
    List (String × String) → List String × MultiWorkerQueue
  | [] => ([], q)
  | r :: rs =>
      ((q.get_worker r.1 r.2).1 :: ((q.get_worker r.1 r.2).2.runGetWorkers rs).1,
        ((q.get_worker r.1 r.2).2.runGetWorkers rs).2)

theorem MultiWorkerQueue.assign_qpfx (q : MultiWorkerQueue) (k : String) :
    (q.assign k).2.qpfx = q.qpfx := by
  unfold MultiWorkerQueue.assign
  cases alistGet k q.worker_map <;> rfl

theorem MultiWorkerQueue.assign_self (q : MultiWorkerQueue) (k : String) :
    alistGet k (q.assign k).2.worker_map = some (q.assign k).1 := by
  unfold MultiWorkerQueue.assign
  cases h : alistGet k q.worker_map with
  | none => simp [alistGet]
  | some w => simpa using h

theorem MultiWorkerQueue.assign_preserve (q : MultiWorkerQueue) (j k : String)
    (w : Nat) (h : alistGet k q.worker_map = some w) :
    alistGet k (q.assign j).2.worker_map = some w := by
  unfold MultiWorkerQueue.assign
  cases hj : alistGet j q.worker_map with
  | some u => simpa using h
  | none =>
      have hne : j ≠ k := by
        intro he
        rw [he] at hj
        rw [hj] at h
        exact Option.noConfusion h
      simp only [alistGet, if_neg hne]
      exact h

theorem MultiWorkerQueue.run_preserve (q : MultiWorkerQueue)
    (rs : List (String × String)) (k : String) (w : Nat)
    (h : alistGet k q.worker_map = some w) :
    alistGet k (q.runGetWorkers rs).2.worker_map = some w := by
  induction rs generalizing q with
  | nil => exact h
  | cons r rs ih =>
      simp only [MultiWorkerQueue.runGetWorkers]
      exact ih _ (MultiWorkerQueue.assign_preserve q _ k w h)

theorem MultiWorkerQueue.run_qpfx (q : MultiWorkerQueue)
    (rs : List (String × String)) :
    (q.runGetWorkers rs).2.qpfx = q.qpfx := by
  induction rs generalizing q with
  | nil => rfl
  | cons r rs ih =>
      simp only [MultiWorkerQueue.runGetWorkers]
      rw [ih _]
      exact MultiWorkerQueue.assign_qpfx q _

theorem MultiWorkerQueue.run_out (q : MultiWorkerQueue)
    (rs : List (String × String)) (i : Nat) (r : String × String)
    (h : rs[i]? = some r) :
    ∃ w, (q.runGetWorkers rs).1[i]? = some (mkWorkerName q.qpfx w) ∧
      alistGet (r.1 ++ ":" ++ r.2) (q.runGetWorkers rs).2.worker_map = some w := by
  induction rs generalizing q i with
  | nil => simp at h
  | cons r0 rs ih =>
      cases i with
      | zero =>
          simp only [List.getElem?_cons_zero, Option.some.injEq] at h
          subst h
          refine ⟨(q.assign (r0.1 ++ ":" ++ r0.2)).1, ?_, ?_⟩
          · simp [MultiWorkerQueue.runGetWorkers, MultiWorkerQueue.get_worker]
          · simp only [MultiWorkerQueue.runGetWorkers]
            exact MultiWorkerQueue.run_preserve _ rs _ _
              (MultiWorkerQueue.assign_self q _)
      | succ n =>
          simp only [List.getElem?_cons_succ] at h
          obtain ⟨w, hout, hmap⟩ := ih ((q.get_worker r0.1 r0.2).2) n h
          refine ⟨w, ?_, ?_⟩
          · simp only [MultiWorkerQueue.runGetWorkers, List.getElem?_cons_succ]
            rw [← MultiWorkerQueue.assign_qpfx q (r0.1 ++ ":" ++ r0.2)]
            exact hout
          · simpa [MultiWorkerQueue.runGetWorkers] using hmap

/-- Claim C5 (Sharding stickiness): within one MultiWorkerQueue
instance's lifetime, any two poll results with equal
`(oidset_name, device_name)` are sent to the same worker queue by
`get_worker`, and an ordinal recorded in `worker_map` for a key is never
reassigned by any later `get_worker`/`put` call. -/
theorem sharding_stickiness (q : MultiWorkerQueue) (rs : List (String × String)) :
    (∀ (i j : Nat) (r r' : String × String), rs[i]? = some r → rs[j]? = some r' →
        r.1 = r'.1 → r.2 = r'.2 →
        (q.runGetWorkers rs).1[i]? = (q.runGetWorkers rs).1[j]?) ∧
    (∀ k w, alistGet k q.worker_map = some w →
        alistGet k (q.runGetWorkers rs).2.worker_map = some w) := by
  constructor
  · intro i j r r' hi hj h1 h2
    obtain ⟨wi, houti, hmapi⟩ := MultiWorkerQueue.run_out q rs i r hi
    obtain ⟨wj, houtj, hmapj⟩ := MultiWorkerQueue.run_out q rs j r' hj
    have hkey : r.1 ++ ":" ++ r.2 = r'.1 ++ ":" ++ r'.2 := by rw [h1, h2]
    rw [hkey] at hmapi
    rw [hmapi] at hmapj
    injection hmapj with hw
    rw [houti, houtj, hw]
  · intro k w h
    exact MultiWorkerQueue.run_preserve q rs k w h

/-- Witness for C5: the first and third calls share the key `a:d` and
receive the same queue name; a pre-recorded assignment survives a run. -/
theorem sharding_stickiness_witness :
    ((MultiWorkerQueue.init "w" 2).runGetWorkers
        [("a", "d"), ("b", "e"), ("a", "d")]).1[0]?
      = ((MultiWorkerQueue.init "w" 2).runGetWorkers
        [("a", "d"), ("b", "e"), ("a", "d")]).1[2]? ∧
    alistGet "x:y" ((⟨"w", 2, 1, [("x:y", 5)]⟩ : MultiWorkerQueue).runGetWorkers
        [("a", "d")]).2.worker_map = some 5 := by
  constructor
  · exact (sharding_stickiness _ _).1 0 2 ("a", "d") ("a", "d")
      (by decide) (by decide) rfl rfl
  · exact (sharding_stickiness _ _).2 "x:y" 5 (by decide)

/-- The range invariant of the sharding state (claim C8). -/
def MultiWorkerQueue.WInv (qp : String) (n : Nat) (q : MultiWorkerQueue) : Prop :=
  q.qpfx = qp ∧ q.num_workers = n ∧
  1 ≤ q.cur_worker ∧ q.cur_worker ≤ n ∧
  ∀ p ∈ q.worker_map, 1 ≤ p.2 ∧ p.2 ≤ n

theorem MultiWorkerQueue.assign_winv {qp : String} {n : Nat} {q : MultiWorkerQueue}
    (h : MultiWorkerQueue.WInv qp n q) (k : String) :
    MultiWorkerQueue.WInv qp n (q.assign k).2 ∧
    1 ≤ (q.assign k).1 ∧ (q.assign k).1 ≤ n := by
  obtain ⟨hp, hn, hc1, hc2, hm⟩ := h
  unfold MultiWorkerQueue.assign
  cases hk : alistGet k q.worker_map with
  | some w =>
      have hw := hm (k, w) (alistGet_mem hk)
      exact ⟨⟨hp, hn, hc1, hc2, hm⟩, hw.1, hw.2⟩
  | none =>
      refine ⟨⟨hp, hn, ?_, ?_, ?_⟩, hc1, hc2⟩
      · by_cases hlt : q.num_workers < q.cur_worker + 1
        · simp [hlt]
        · simp [hlt]
      · by_cases hlt : q.num_workers < q.cur_worker + 1
        · simp only [if_pos hlt]
          omega
        · simp only [if_neg hlt]
          omega
      · intro p hmem
        rcases List.mem_cons.1 hmem with he | hmem'
        · rw [he]
          exact ⟨hc1, hc2⟩
        · exact hm p hmem'

theorem MultiWorkerQueue.run_winv {qp : String} {n : Nat} {q : MultiWorkerQueue}
    (h : MultiWorkerQueue.WInv qp n q) (rs : List (String × String)) :
    MultiWorkerQueue.WInv qp n (q.runGetWorkers rs).2 ∧
    ∀ nm ∈ (q.runGetWorkers rs).1, ∃ w, 1 ≤ w ∧ w ≤ n ∧ nm = mkWorkerName qp w := by
  induction rs generalizing q with
  | nil => exact ⟨h, by intro nm hnm; simp [MultiWorkerQueue.runGetWorkers] at hnm⟩
  | cons r rs ih =>
      obtain ⟨hinv', hw1, hw2⟩ := MultiWorkerQueue.assign_winv h (r.1 ++ ":" ++ r.2)
      obtain ⟨hinv'', hnames⟩ := ih hinv'
      refine ⟨by simpa [MultiWorkerQueue.runGetWorkers, MultiWorkerQueue.get_worker]
          using hinv'', ?_⟩
      intro nm hnm
      simp only [MultiWorkerQueue.runGetWorkers, List.mem_cons] at hnm
      rcases hnm with he | hmem
      · refine ⟨(q.assign (r.1 ++ ":" ++ r.2)).1, hw1, hw2, ?_⟩
        rw [he]
        simp only [MultiWorkerQueue.get_worker]
        rw [h.1]
      · exact hnames nm hmem

/-- Claim C8 (Worker-ordinal range invariant): for every MultiWorkerQueue
constructed with `num_workers = n ≥ 1` and every sequence of
`get_worker`/`put` calls, the cursor and every ordinal stored in
`worker_map` lie in `[1..n]`, and every name `get_worker` returns is one
of the `n` sibling queue names built at construction — so `put`'s
`self.queues[workerqname]` lookup never fails. -/
theorem worker_ordinal_range (qp : String) (n : Nat) (rs : List (String × String))
    (hn : 1 ≤ n) :
    (∀ nm ∈ ((MultiWorkerQueue.init qp n).runGetWorkers rs).1,
        nm ∈ (MultiWorkerQueue.init qp n).queueNames) ∧
    1 ≤ ((MultiWorkerQueue.init qp n).runGetWorkers rs).2.cur_worker ∧
    ((MultiWorkerQueue.init qp n).runGetWorkers rs).2.cur_worker ≤ n ∧
    (∀ p ∈ ((MultiWorkerQueue.init qp n).runGetWorkers rs).2.worker_map,
        1 ≤ p.2 ∧ p.2 ≤ n) := by
  have hinv0 : MultiWorkerQueue.WInv qp n (MultiWorkerQueue.init qp n) :=
    ⟨rfl, rfl, le_refl 1, hn, by intro p hp; simp [MultiWorkerQueue.init] at hp⟩
  obtain ⟨hinv, hnames⟩ := MultiWorkerQueue.run_winv hinv0 rs
  refine ⟨?_, hinv.2.2.1, hinv.2.2.2.1, hinv.2.2.2.2⟩
  intro nm hnm
  obtain ⟨w, hw1, hw2, hnm'⟩ := hnames nm hnm
  rw [hnm']
  have hq : (MultiWorkerQueue.init qp n).queueNames
      = (List.range' 1 n).map (mkWorkerName qp) := rfl
  rw [hq]
  apply List.mem_map_of_mem
  rw [List.mem_range']
  exact ⟨w - 1, by omega, by omega⟩

/-- Witness for C8 at a concrete three-call run on two workers: the
first chosen name is one of the two sibling queue names, and the final
cursor is inside `[1..2]`. -/
theorem worker_ordinal_range_witness :
    "q_1" ∈ (MultiWorkerQueue.init "q" 2).queueNames ∧
    1 ≤ ((MultiWorkerQueue.init "q" 2).runGetWorkers
        [("a", "d1"), ("b", "d2"), ("c", "d3")]).2.cur_worker ∧
    ((MultiWorkerQueue.init "q" 2).runGetWorkers
        [("a", "d1"), ("b", "d2"), ("c", "d3")]).2.cur_worker ≤ 2 := by
  have h := worker_ordinal_range "q" 2 [("a", "d1"), ("b", "d2"), ("c", "d3")]
    (by decide)
  exact ⟨h.1 "q_1" (by decide), h.2.1, h.2.2.1⟩

/-! ## The TSDB persister's sample pipeline (persist.py lines 225-266) -/

/-- Status of the TSDB variable at a path when `store` runs:
`ok` (`get_var` succeeds), `missing` (`TSDBVarDoesNotExistError`: the
variable is created and the sample still inserted), `invalid`
(`InvalidMetaData`: `_repair_var_metadata` logs, and the `continue`
skips this sample — repair is not implemented). -/
inductive VarStatus where
  | ok : VarStatus
  | missing : VarStatus
  | invalid : VarStatus
deriving DecidableEq

/-- One `tsdb_var.insert(var_type(result.timestamp, flags, val))` call. -/
structure TSDBInsert where
  var_name : String
  ts : Nat
  flags : String
  value : ℚ
deriving DecidableEq

/-- Python `float(val)` on a numeric SNMP sample, modelled exactly over
the rationals. -/
def pyFloat (v : ℚ) : ℚ := v

/-- The per-sample body of `TSDBPollPersister.store` (lines 237-253):
apply the SparkySet calibration (`val = float(val) * 100`), build the
variable path (`os.path.join` modelled as `/`-concatenation), and insert
unless the variable's metadata is invalid (in which case the sample is
skipped). -/
def tsdbInsertFor (set_name basename flags : String) (ts : Nat)
    (vstat : String → VarStatus) (p : String × ℚ) : Option TSDBInsert :=
  match vstat (basename ++ "/" ++ p.1) with
  | VarStatus.invalid => Option.none
  | _ => some ⟨basename ++ "/" ++ p.1, ts, flags,
      if set_name = "SparkySet" then pyFloat p.2 * 100 else p.2⟩

/-- `TSDBPollPersister.store` (lines 225-266), projected onto the samples
it inserts.  `set_name_arg` is `self.poller_args[oidset.name].get('set_name')`
(so `set_name = set_name_arg or oidset.name`); `vstat` is the state of
the TSDB at each variable path; `none` is the KeyError on a missing
`tsdb_flags` metadata key.  Variable creation inserts the same sample,
and aggregation after an insert does not alter inserted samples, so the
returned list is exactly the inserts performed in iteration order. -/
def TSDBPollPersister.store (set_name_arg : Option String)
    (vstat : String → VarStatus)
    (r : PollResult (List (String × ℚ)) (List (String × String))) :
    Option (List TSDBInsert) :=
  match alistGet "tsdb_flags" r.metadata with
  | Option.none => Option.none
  | some flags =>
      some (r.data.filterMap (tsdbInsertFor (set_name_arg.getD r.oidset_name)
        (r.device_name ++ "/" ++ set_name_arg.getD r.oidset_name) flags
        r.timestamp vstat))

/-- Claim C7 (Sparky scaling): in `TSDBPollPersister.store`, every sample
inserted for a `(name, value)` pair of `result.data` carries the value
`float(value) * 100` when the resolved set_name equals `"SparkySet"`,
and the unscaled value for every other set_name; its path and timestamp
come from the pair and the result. -/
theorem sparky_scaling (set_name_arg : Option String) (vstat : String → VarStatus)
    (r : PollResult (List (String × ℚ)) (List (String × String)))
    (l : List TSDBInsert)
    (h : TSDBPollPersister.store set_name_arg vstat r = some l) :
    ∀ ins ∈ l, ∃ p ∈ r.data,
      ins.var_name = r.device_name ++ "/" ++ set_name_arg.getD r.oidset_name
        ++ "/" ++ p.1 ∧
      ins.ts = r.timestamp ∧
      (set_name_arg.getD r.oidset_name = "SparkySet" →
          ins.value = pyFloat p.2 * 100) ∧
      (set_name_arg.getD r.oidset_name ≠ "SparkySet" → ins.value = p.2) := by
  unfold TSDBPollPersister.store at h
  cases hf : alistGet "tsdb_flags" r.metadata with
  | none => rw [hf] at h; exact absurd h (by simp)
  | some flags =>
      rw [hf] at h
      injection h with h
      intro ins hins
      rw [← h] at hins
      obtain ⟨p, hp, hfp⟩ := List.mem_filterMap.1 hins
      refine ⟨p, hp, ?_⟩
      unfold tsdbInsertFor at hfp
      cases hv : vstat (r.device_name ++ "/" ++ set_name_arg.getD r.oidset_name
          ++ "/" ++ p.1) with
      | invalid => rw [hv] at hfp; exact absurd hfp (by simp)
      | ok =>
          rw [hv] at hfp
          injection hfp with hfp
          rw [← hfp]
          refine ⟨rfl, rfl, ?_, ?_⟩
          · intro hsp
            simp only [if_pos hsp]
          · intro hsp
            simp only [if_neg hsp]
      | missing =>
          rw [hv] at hfp
          injection hfp with hfp
          rw [← hfp]
          refine ⟨rfl, rfl, ?_, ?_⟩
          · intro hsp
            simp only [if_pos hsp]
          · intro hsp
            simp only [if_neg hsp]

/-- A concrete poll result for the C7 witness. -/
def c7result : PollResult (List (String × ℚ)) (List (String × String)) :=
  ⟨"FastPoll", "dev", "ifInOctets", 100, [("v", 3)], [("tsdb_flags", "f")]⟩

/-- Witness for C7: with set_name resolved to SparkySet, the single
sample of `c7result` is stored with value `float(3) * 100`. -/
theorem sparky_scaling_witness :
    (⟨"dev/SparkySet/v", 100, "f", 300⟩ : TSDBInsert).value = pyFloat 3 * 100 := by
  have h := sparky_scaling (some "SparkySet") (fun _ => VarStatus.ok) c7result
    [(⟨"dev/SparkySet/v", 100, "f", 300⟩ : TSDBInsert)]
    (by norm_num [TSDBPollPersister.store, tsdbInsertFor, c7result, alistGet,
      pyFloat, List.filterMap]; decide)
    (⟨"dev/SparkySet/v", 100, "f", 300⟩ : TSDBInsert) (List.mem_cons_self _ _)
  obtain ⟨p, hp, hname, hts, hsp, hnsp⟩ := h
  have hps : p = ("v", (3 : ℚ)) := by
    have := hp
    simp [c7result] at this
    exact this
  rw [hps] at hsp
  exact hsp rfl

/-! ## The Infinera result rewriting (persist.py lines 621-656) -/

/-- The `(name, value)` entry list of one OID in `result.data`. -/
abbrev OidEntries := List (String × PyVal)

/-- The data payload handed to the IfRef family of persisters: a dict
from OID name to its entry list. -/
abbrev DeviceData := List (String × OidEntries)

/-- Characters of `pre` are an initial segment of `s`. -/
def chIsPre : List Char → List Char → Bool
  | [], _ => true
  | _ :: _, [] => false
  | c :: cs, d :: ds => c == d && chIsPre cs ds

/-- Python `s.startswith(pre)`. -/
def pyStartsWith (s pre : String) : Bool := chIsPre pre.data s.data

/-- Split a character list at the first occurrence of `sep`. -/
def chSplitFirst (sep : Char) : List Char → Option (List Char × List Char)
  | [] => Option.none
  | c :: cs =>
      if c = sep then some ([], cs)
      else (chSplitFirst sep cs).map (fun q => (c :: q.1, q.2))

/-- Python `s.split(sep, 1)[1]` under tuple unpacking `a, b = ...`:
everything after the first `sep`; `none` models the ValueError raised
when `sep` does not occur. -/
def afterFirst (sep : Char) (s : String) : Option String :=
  (chSplitFirst sep s.data).map (fun q => ⟨q.2⟩)

/-- The `ifalias` dict built from the `gigeClientCtpPmRealCktId` entries
(lines 637-640): `_, ifidx = k.split('.', 1); ifalias[ifidx] = v`
(later entries overwrite). -/
def buildAliasMap : List (String × PyVal) → List (String × PyVal) →
    Option (List (String × PyVal))
  | [], acc => some acc
  | (k, v) :: rest, acc =>
      match afterFirst '.' k with
      | some ifidx => buildAliasMap rest (alistSet ifidx v acc)
      | Option.none => Option.none

/-- Accumulated effect of the `ifDescr` loop of lines 642-651. -/
structure InfLoopOut where
  keep : OidEntries
  aliasAdds : OidEntries
  speedAdds : OidEntries
  highAdds : OidEntries

/-- The `ifDescr` loop (lines 642-651): keep only string entries
beginning with `GIGECLIENTCTP`, strip up to the first `=`, and per kept
entry append a synthesized `ifAlias` (from the alias map, defaulting to
the empty string) and zero-valued `ifSpeed`/`ifHighSpeed` entries.
`none` models the AttributeError on a non-string value or the ValueError
of a failing split. -/
def infDescrLoop (aliasMap : List (String × PyVal)) :
    List (String × PyVal) → Option InfLoopOut
  | [] => some ⟨[], [], [], []⟩
  | (k, v) :: rest =>
      match v with
      | PyVal.str s =>
          if pyStartsWith s "GIGECLIENTCTP" then
            match afterFirst '=' s, afterFirst '.' k, infDescrLoop aliasMap rest with
            | some ifdescr, some ifidx, some o =>
                some ⟨(k, PyVal.str ifdescr) :: o.keep,
                      ("ifAlias." ++ ifidx,
                        (alistGet ifidx aliasMap).getD (PyVal.str "")) :: o.aliasAdds,
                      ("ifSpeed." ++ ifidx, PyVal.int 0) :: o.speedAdds,
                      ("ifHighSpeed." ++ ifidx, PyVal.int 0) :: o.highAdds⟩
            | _, _, _ => Option.none
          else infDescrLoop aliasMap rest
      | _ => Option.none

/-- The net rewriting of `result.data` performed by
`InfIfRefPollPersister.store` (lines 630-654): `ifAlias`, `ifSpeed`,
`ifHighSpeed` and `ipAdEntIfIndex` are reset and refilled from the kept
`ifDescr` entries, `ifDescr` is replaced by the kept entries, and
`gigeClientCtpPmRealCktId` is deleted.  `none` models an escaping
exception (missing keys, non-string values or failing splits; Python
would leave the dict partially rewritten there). -/
def infStoreTransform (data : DeviceData) : Option DeviceData :=
  match alistGet "gigeClientCtpPmRealCktId" data, alistGet "ifDescr" data with
  | some gige, some descr =>
      match buildAliasMap gige [] with
      | Option.none => Option.none
      | some aliasMap =>
          match infDescrLoop aliasMap descr with
          | Option.none => Option.none
          | some o =>
              some (alistDel "gigeClientCtpPmRealCktId"
                (alistSet "ifDescr" o.keep
                  (alistSet "ipAdEntIfIndex" []
                    (alistSet "ifHighSpeed" o.highAdds
                      (alistSet "ifSpeed" o.speedAdds
                        (alistSet "ifAlias" o.aliasAdds data))))))
  | _, _ => Option.none

/-- `InfIfRefPollPersister.store` as observed on its argument: the result
after the in-place rewriting of `result.data` (the subsequent
`IfRefPollPersister.store` call only reads the result). -/
def InfIfRefPollPersister.store {μ : Type} (r : PollResult DeviceData μ) :
    Option (PollResult DeviceData μ) :=
  match infStoreTransform r.data with
  | Option.none => Option.none
  | some d => some { r with data := d }

/-- A concrete Infinera poll result for claim C4. -/
def infCexResult : PollResult DeviceData (List (String × String)) :=
  ⟨"infinera", "d", "ifref", 0,
    [("ifDescr", [("ifDescr.1", PyVal.str "GIGECLIENTCTP=1-A-1-1")]),
     ("gigeClientCtpPmRealCktId", [("g.1", PyVal.str "ckt7")])],
    []⟩

/-- The stored form of `infCexResult`. -/
def infCexStored : PollResult DeviceData (List (String × String)) :=
  (InfIfRefPollPersister.store infCexResult).getD infCexResult

/-- Claim C4 counterexample: `InfIfRefPollPersister.store` completes on
this result and rewrites `result.data` (stripped `ifDescr`, synthesized
`ifAlias`/`ifSpeed`/`ifHighSpeed`/`ipAdEntIfIndex`, deleted
`gigeClientCtpPmRealCktId`), so storing does not leave every field of
the PollResult unchanged.  (`ALUIfRefPollPersister._resolve_ifdescr`
likewise appends synthesized `ifAlias` entries to `result.data`.) -/
theorem pollresult_immutability_cex :
    (InfIfRefPollPersister.store infCexResult).isSome = true ∧
    (InfIfRefPollPersister.store infCexResult).map (fun x => x.data)
      ≠ some infCexResult.data := by
  decide

/-- Claim C4 amended: storing never mutates the `oidset_name`,
`device_name`, `oid_name`, `timestamp` and `metadata` fields of a
PollResult, but `result.data` is not immutable: the Infinera (and ALU)
IfRef persisters rewrite it in place. -/
theorem pollresult_fields_preserved {μ : Type} (r r' : PollResult DeviceData μ)
    (h : InfIfRefPollPersister.store r = some r') :
    r'.oidset_name = r.oidset_name ∧ r'.device_name = r.device_name ∧
    r'.oid_name = r.oid_name ∧ r'.timestamp = r.timestamp ∧
    r'.metadata = r.metadata := by
  unfold InfIfRefPollPersister.store at h
  cases ht : infStoreTransform r.data with
  | none => rw [ht] at h; exact absurd h (by simp)
  | some d =>
      rw [ht] at h
      injection h with h
      rw [← h]
      exact ⟨rfl, rfl, rfl, rfl, rfl⟩

/-- Witness for the amended C4 at the concrete Infinera result. -/
theorem pollresult_fields_preserved_witness :
    infCexStored.oidset_name = infCexResult.oidset_name ∧
    infCexStored.device_name = infCexResult.device_name ∧
    infCexStored.oid_name = infCexResult.oid_name ∧
    infCexStored.timestamp = infCexResult.timestamp ∧
    infCexStored.metadata = infCexResult.metadata :=
  pollresult_fields_preserved infCexResult infCexStored (by decide)

/-! ## The history-table reconciler (persist.py lines 340-395) -/

/-- The attribute dictionary of one entity in the fresh snapshot
(`self.new_data[k]`, as built by `_build_objs`). -/
abbrev SnapAttrs := List (String × PyVal)

/-- One interval-valued history row (IfRef / ALUSAPRef / LSPOpStatus):
the bookkeeping columns written by `_new_row_from_obj` plus the SNMP
attribute columns, modelled as a map on which `getattr` / `hasattr` /
`setattr` act.  (The attribute names coming from SNMP never collide with
the bookkeeping column names.) -/
structure HistRow where
  deviceid : Nat
  begin_time : String
  end_time : String
  attrs : SnapAttrs
deriving DecidableEq

/-- `getattr(old, a)`; `none` models a missing attribute
(`hasattr(old, a)` false). -/
def HistRow.getattr (r : HistRow) (a : String) : Option PyVal :=
  alistGet a r.attrs

/-- A row is live when its `end_time` is the database sentinel
`Infinity` (the tables are queried with `end_time > 'NOW'`). -/
def HistRow.isLive (r : HistRow) : Bool := r.end_time == "Infinity"

/-- `old.end_time = 'NOW'`: close a row. -/
def HistRow.close (r : HistRow) : HistRow := { r with end_time := "NOW" }

/-- `_new_row_from_obj(obj)` (e.g. lines 429-436): deviceid from the
device row, `begin_time = 'NOW'`, `end_time = 'Infinity'`, then
`setattr` for every key of the dictionary. -/
def newRowFromObj (dev : Nat) (obj : SnapAttrs) : HistRow :=
  ⟨dev, "NOW", "Infinity", obj⟩

/-- The inner comparison loop of update_db (lines 362-373): iterate over
the new dictionary's keys minus the key attribute; a field the old row
object does not have is logged and skipped (`continue`); otherwise the
first differing value marks the row changed (`break`).  The
`alistGet attr new` lookup cannot miss (the attribute names come from
`new.keys()`); that arm is unreachable. -/
def rowChanged (key : String) (old : HistRow) (new : SnapAttrs) : Bool :=
  ((new.map Prod.fst).erase key).any fun attr =>
    match old.getattr attr with
    | Option.none => false
    | some v =>
        match alistGet attr new with
        | some w => decide (v ≠ w)
        | Option.none => false

/-- Intermediate state after the first update_db loop. -/
structure LoopState where
  changes : Nat
  deletes : Nat
  olds : List HistRow
  added : List HistRow
  remaining : List (PyVal × SnapAttrs)
deriving DecidableEq

/-- The first loop of `HistoryTablePersister.update_db` (lines 357-385),
processing the currently-live rows against the snapshot: a matched
entity is compared (and its snapshot entry deleted afterwards), a
changed match closes the old row and adds a fresh row, a vanished entity
closes the old row.  `none` models an uncaught exception: an
AttributeError when an old row lacks the key attribute, or the
ValueError of `attrs.remove(self.key)` when a matched dictionary lacks
the key attribute. -/
def update_db_loop (key : String) (dev : Nat) :
    List HistRow → List (PyVal × SnapAttrs) → Option LoopState
  | [], nd => some ⟨0, 0, [], [], nd⟩
  | old :: rest, nd =>
      match old.getattr key with
      | Option.none => Option.none
      | some k =>
          match alistGet k nd with
          | some new =>
              if key ∈ new.map Prod.fst then
                match update_db_loop key dev rest (alistDel k nd) with
                | Option.none => Option.none
                | some st =>
                    if rowChanged key old new then
                      some ⟨st.changes + 1, st.deletes, old.close :: st.olds,
                            newRowFromObj dev new :: st.added, st.remaining⟩
                    else
                      some ⟨st.changes, st.deletes, old :: st.olds, st.added,
                            st.remaining⟩
              else Option.none
          | Option.none =>
              match update_db_loop key dev rest nd with
              | Option.none => Option.none
              | some st =>
                  some ⟨st.changes, st.deletes + 1, old.close :: st.olds,
                        st.added, st.remaining⟩

/-- Result of one update_db run: the returned `(adds, changes, deletes)`
counters, the old rows with their end_time updates, and the rows added
to the session (in session-add order). -/
structure UpdateOutcome where
  adds : Nat
  changes : Nat
  deletes : Nat
  olds : List HistRow
  added : List HistRow
deriving DecidableEq

/-- `HistoryTablePersister.update_db` (lines 343-395): the first loop
over the live rows followed by the add loop over whatever is left of the
snapshot (`new_data` is a dict, so its keys are distinct and the
iteration adds one row per remaining entry). -/
def HistoryTablePersister.update_db (key : String) (dev : Nat)
    (old_data : List HistRow) (new_data : List (PyVal × SnapAttrs)) :
    Option UpdateOutcome :=
  match update_db_loop key dev old_data new_data with
  | Option.none => Option.none
  | some st =>
      some ⟨st.remaining.length, st.changes, st.deletes, st.olds,
            st.added ++ st.remaining.map (fun p => newRowFromObj dev p.2)⟩

/-- The rows that are live in the table after a run's commit (the rows
the next `store` call's query returns as `old_data`). -/
def UpdateOutcome.liveRows (res : UpdateOutcome) : List HistRow :=
  (res.olds ++ res.added).filter fun r => r.isLive

theorem isLive_newRowFromObj (dev : Nat) (m : SnapAttrs) :
    (newRowFromObj dev m).isLive = true := by
  simp [newRowFromObj, HistRow.isLive]

theorem isLive_close (r : HistRow) : r.close.isLive = false := by
  simp [HistRow.close, HistRow.isLive]

theorem rowChanged_newRowFromObj (key : String) (dev : Nat) (m : SnapAttrs) :
    rowChanged key (newRowFromObj dev m) m = false := by
  unfold rowChanged
  rw [List.any_eq_false]
  intro a ha
  have hg : (newRowFromObj dev m).getattr a = alistGet a m := rfl
  rw [hg]
  cases h : alistGet a m with
  | none => simp
  | some v => simp

/-- An entity row is matched by the snapshot and carries no difference:
the state of every row that is live after a successful run. -/
def MatchedUnchanged (key : String) (nd : List (PyVal × SnapAttrs))
    (r : HistRow) : Prop :=
  ∃ k m, r.getattr key = some k ∧ (k, m) ∈ nd ∧ rowChanged key r m = false

theorem matchedUnchanged_newRowFromObj {key : String} {nd : List (PyVal × SnapAttrs)}
    {dev : Nat} {p : PyVal × SnapAttrs} (hmem : p ∈ nd)
    (hkc : alistGet key p.2 = some p.1) :
    MatchedUnchanged key nd (newRowFromObj dev p.2) := by
  refine ⟨p.1, p.2, hkc, by simpa using hmem, rowChanged_newRowFromObj key dev p.2⟩

theorem filterMap_eq_map_of_forall {α β : Type} {l : List α} {f : α → Option β}
    {g : α → β} (h : ∀ a ∈ l, f a = some (g a)) : l.filterMap f = l.map g := by
  induction l with
  | nil => rfl
  | cons a l ih =>
      rw [List.filterMap_cons, h a (List.mem_cons_self _ _), List.map_cons,
        ih (fun b hb => h b (List.mem_cons_of_mem _ hb))]

theorem matchedUnchanged_mono {key : String} {nd nd' : List (PyVal × SnapAttrs)}
    {r : HistRow} (hsub : List.Sublist nd' nd) :
    MatchedUnchanged key nd' r → MatchedUnchanged key nd r := by
  rintro ⟨k, m, h1, h2, h3⟩
  exact ⟨k, m, h1, hsub.subset h2, h3⟩


theorem update_db_loop_char (key : String) (dev : Nat) :
    ∀ (olds : List HistRow) (nd : List (PyVal × SnapAttrs)) (st : LoopState),
      (∀ r ∈ olds, r.isLive = true) →
      (∀ p ∈ nd, alistGet key p.2 = some p.1) →
      (nd.map Prod.fst).Nodup →
      update_db_loop key dev olds nd = some st →
      List.Sublist st.remaining nd ∧
      (∀ r ∈ st.added, ∃ m, r = newRowFromObj dev m) ∧
      (∀ r ∈ (st.olds.filter fun x => x.isLive) ++ st.added,
          MatchedUnchanged key nd r) ∧
      List.Perm
        (((st.olds.filter fun x => x.isLive) ++ st.added).filterMap
            (fun r => r.getattr key) ++ st.remaining.map Prod.fst)
        (nd.map Prod.fst) := by
  intro olds
  induction olds with
  | nil =>
      intro nd st hlive hkc hnd hrun
      simp only [update_db_loop, Option.some.injEq] at hrun
      subst hrun
      refine ⟨List.Sublist.refl nd, ?_, ?_, ?_⟩
      · intro r hr
        exact absurd hr (List.not_mem_nil r)
      · intro r hr
        exact absurd hr (List.not_mem_nil r)
      · exact List.Perm.refl _
  | cons old rest ih =>
      intro nd st hlive hkc hnd hrun
      have hlive' : ∀ r ∈ rest, r.isLive = true :=
        fun r hr => hlive r (List.mem_cons_of_mem _ hr)
      have holdlive : old.isLive = true := hlive old (List.mem_cons_self _ _)
      simp only [update_db_loop] at hrun
      cases hk : old.getattr key with
      | none => simp [hk] at hrun
      | some k =>
          simp only [hk] at hrun
          cases hlk : alistGet k nd with
          | some new =>
              simp only [hlk] at hrun
              by_cases hkm : key ∈ new.map Prod.fst
              · rw [if_pos hkm] at hrun
                cases hrec : update_db_loop key dev rest (alistDel k nd) with
                | none => simp [hrec] at hrun
                | some st' =>
                    simp only [hrec] at hrun
                    have hmem : (k, new) ∈ nd := alistGet_mem hlk
                    have hkmem : k ∈ nd.map Prod.fst :=
                      List.mem_map.2 ⟨(k, new), hmem, rfl⟩
                    have hkc' : ∀ p ∈ alistDel k nd, alistGet key p.2 = some p.1 :=
                      fun p hp => hkc p ((alistDel_sublist k nd).subset hp)
                    have hnd' : ((alistDel k nd).map Prod.fst).Nodup := by
                      rw [map_fst_alistDel]
                      exact List.Nodup.erase k hnd
                    have hknew : alistGet key new = some k := hkc (k, new) hmem
                    obtain ⟨ihsub, ihadd, ihchar, ihperm⟩ :=
                      ih (alistDel k nd) st' hlive' hkc' hnd' hrec
                    rw [List.filterMap_append] at ihperm
                    have hsub : List.Sublist st'.remaining nd :=
                      ihsub.trans (alistDel_sublist k nd)
                    have hpermtail :
                        List.Perm (((st'.olds.filter fun x => x.isLive).filterMap
                            (fun r => r.getattr key)
                          ++ st'.added.filterMap (fun r => r.getattr key))
                          ++ st'.remaining.map Prod.fst)
                          ((nd.map Prod.fst).erase k) := by
                      rw [← map_fst_alistDel]
                      exact ihperm
                    by_cases hch : rowChanged key old new = true
                    · rw [if_pos hch] at hrun
                      injection hrun with hrun
                      subst hrun
                      have hfc : ((old.close :: st'.olds).filter fun x => x.isLive)
                          = st'.olds.filter fun x => x.isLive := by
                        rw [List.filter_cons_of_neg]
                        simp [isLive_close]
                      refine ⟨hsub, ?_, ?_, ?_⟩
                      · intro r hr
                        rcases List.mem_cons.1 hr with he | hr'
                        · exact ⟨new, he⟩
                        · exact ihadd r hr'
                      · intro r hr
                        dsimp only at hr
                        rw [hfc] at hr
                        rcases List.mem_append.1 hr with hr | hr
                        · exact matchedUnchanged_mono (alistDel_sublist k nd)
                            (ihchar r (List.mem_append.2 (Or.inl hr)))
                        · rcases List.mem_cons.1 hr with he | hr'
                          · rw [he]
                            exact matchedUnchanged_newRowFromObj hmem hknew
                          · exact matchedUnchanged_mono (alistDel_sublist k nd)
                              (ihchar r (List.mem_append.2 (Or.inr hr')))
                      · dsimp only
                        rw [hfc, List.filterMap_append,
                          @List.filterMap_cons_some HistRow PyVal
                            (fun r => r.getattr key) (newRowFromObj dev new)
                            st'.added k hknew]
                        refine List.Perm.trans
                          (List.Perm.append_right _ List.perm_middle) ?_
                        rw [List.cons_append]
                        exact (List.Perm.cons k hpermtail).trans
                          (List.perm_cons_erase hkmem).symm
                    · rw [if_neg hch] at hrun
                      injection hrun with hrun
                      subst hrun
                      have hchf : rowChanged key old new = false := by
                        revert hch
                        cases rowChanged key old new <;> simp
                      have hfc : ((old :: st'.olds).filter fun x => x.isLive)
                          = old :: (st'.olds.filter fun x => x.isLive) :=
                        List.filter_cons_of_pos holdlive
                      refine ⟨hsub, ?_, ?_, ?_⟩
                      · intro r hr
                        exact ihadd r hr
                      · intro r hr
                        dsimp only at hr
                        rw [hfc, List.cons_append] at hr
                        rcases List.mem_cons.1 hr with he | hr'
                        · rw [he]
                          exact ⟨k, new, hk, hmem, hchf⟩
                        · exact matchedUnchanged_mono (alistDel_sublist k nd)
                            (ihchar r hr')
                      · dsimp only
                        rw [hfc, List.cons_append,
                          @List.filterMap_cons_some HistRow PyVal
                            (fun r => r.getattr key) old
                            ((st'.olds.filter fun x => x.isLive) ++ st'.added) k hk,
                          List.filterMap_append, List.cons_append]
                        exact (List.Perm.cons k hpermtail).trans
                          (List.perm_cons_erase hkmem).symm
              · rw [if_neg hkm] at hrun
                exact absurd hrun (by simp)
          | none =>
              simp only [hlk] at hrun
              cases hrec : update_db_loop key dev rest nd with
              | none => simp [hrec] at hrun
              | some st' =>
                  simp only [hrec] at hrun
                  injection hrun with hrun
                  subst hrun
                  obtain ⟨ihsub, ihadd, ihchar, ihperm⟩ :=
                    ih nd st' hlive' hkc hnd hrec
                  have hfc : ((old.close :: st'.olds).filter fun x => x.isLive)
                      = st'.olds.filter fun x => x.isLive := by
                    rw [List.filter_cons_of_neg]
                    simp [isLive_close]
                  refine ⟨ihsub, ?_, ?_, ?_⟩
                  · intro r hr
                    exact ihadd r hr
                  · intro r hr
                    dsimp only at hr
                    rw [hfc] at hr
                    exact ihchar r hr
                  · dsimp only
                    rw [hfc]
                    exact ihperm


theorem update_db_char (key : String) (dev : Nat) (olds : List HistRow)
    (nd : List (PyVal × SnapAttrs)) (res : UpdateOutcome)
    (hlive : ∀ r ∈ olds, r.isLive = true)
    (hkc : ∀ p ∈ nd, alistGet key p.2 = some p.1)
    (hnd : (nd.map Prod.fst).Nodup)
    (hrun : HistoryTablePersister.update_db key dev olds nd = some res) :
    (∀ r ∈ res.liveRows, MatchedUnchanged key nd r) ∧
    List.Perm (res.liveRows.filterMap fun r => r.getattr key) (nd.map Prod.fst) := by
  unfold HistoryTablePersister.update_db at hrun
  cases hst : update_db_loop key dev olds nd with
  | none => rw [hst] at hrun; exact absurd hrun (by simp)
  | some st =>
      rw [hst] at hrun
      injection hrun with hrun
      subst hrun
      obtain ⟨hsub, hadd, hchar, hperm⟩ :=
        update_db_loop_char key dev olds nd st hlive hkc hnd hst
      have haddedlive : ∀ r ∈ st.added, (fun x => x.isLive) r = true := by
        intro r hr
        obtain ⟨m, rfl⟩ := hadd r hr
        exact isLive_newRowFromObj dev m
      have hremlive : ∀ r ∈ st.remaining.map (fun p => newRowFromObj dev p.2),
          (fun x => x.isLive) r = true := by
        intro r hr
        obtain ⟨p, hp, rfl⟩ := List.mem_map.1 hr
        exact isLive_newRowFromObj dev p.2
      have hlr : (⟨st.remaining.length, st.changes, st.deletes, st.olds,
          st.added ++ st.remaining.map fun p => newRowFromObj dev p.2⟩ :
            UpdateOutcome).liveRows
          = ((st.olds.filter fun x => x.isLive) ++ st.added)
            ++ st.remaining.map (fun p => newRowFromObj dev p.2) := by
        unfold UpdateOutcome.liveRows
        dsimp only
        rw [List.filter_append, List.filter_append,
          List.filter_eq_self.2 haddedlive, List.filter_eq_self.2 hremlive,
          ← List.append_assoc]
      constructor
      · intro r hr
        rw [hlr] at hr
        rcases List.mem_append.1 hr with hr | hr
        · exact hchar r hr
        · obtain ⟨p, hp, rfl⟩ := List.mem_map.1 hr
          exact matchedUnchanged_newRowFromObj (hsub.subset hp)
            (hkc p (hsub.subset hp))
      · rw [hlr, List.filterMap_append, List.filterMap_map]
        have hcomp : ∀ p ∈ st.remaining,
            ((fun r => r.getattr key) ∘ (fun p => newRowFromObj dev p.2)) p
              = some p.1 :=
          fun p hp => hkc p (hsub.subset hp)
        rw [filterMap_eq_map_of_forall hcomp]
        exact hperm

theorem update_db_loop_run2 (key : String) (dev : Nat) :
    ∀ (rows : List HistRow) (nd : List (PyVal × SnapAttrs)),
      (∀ p ∈ nd, alistGet key p.2 = some p.1) →
      (nd.map Prod.fst).Nodup →
      (∀ r ∈ rows, MatchedUnchanged key nd r) →
      List.Perm (rows.filterMap fun r => r.getattr key) (nd.map Prod.fst) →
      update_db_loop key dev rows nd = some ⟨0, 0, rows, [], []⟩ := by
  intro rows
  induction rows with
  | nil =>
      intro nd hkc hnd hchar hperm
      have hnil : nd.map Prod.fst = [] := (hperm.symm).eq_nil
      have : nd = [] := List.map_eq_nil_iff.1 hnil
      subst this
      rfl
  | cons r rest ih =>
      intro nd hkc hnd hchar hperm
      obtain ⟨k, m, hk, hmem, hch⟩ := hchar r (List.mem_cons_self _ _)
      have hlk : alistGet k nd = some m := alistGet_of_mem_nodup hmem hnd
      have hkm : key ∈ m.map Prod.fst := alistGet_mem_keys (hkc (k, m) hmem)
      have hfm : (r :: rest).filterMap (fun x => x.getattr key)
          = k :: rest.filterMap (fun x => x.getattr key) :=
        @List.filterMap_cons_some HistRow PyVal (fun x => x.getattr key) r rest k hk
      rw [hfm] at hperm
      have hkmem : k ∈ nd.map Prod.fst := List.mem_map.2 ⟨(k, m), hmem, rfl⟩
      have hnodupL : (k :: rest.filterMap fun x => x.getattr key).Nodup :=
        hperm.symm.nodup hnd
      have hknotin : k ∉ rest.filterMap fun x => x.getattr key :=
        (List.nodup_cons.1 hnodupL).1
      have hchar' : ∀ x ∈ rest, MatchedUnchanged key (alistDel k nd) x := by
        intro x hx
        obtain ⟨k', m', hk', hmem', hch'⟩ := hchar x (List.mem_cons_of_mem _ hx)
        have hne : k' ≠ k := by
          intro he
          apply hknotin
          rw [← he]
          exact List.mem_filterMap.2 ⟨x, hx, hk'⟩
        exact ⟨k', m', hk', mem_alistDel_of_ne hmem' hne, hch'⟩
      have hkc' : ∀ p ∈ alistDel k nd, alistGet key p.2 = some p.1 :=
        fun p hp => hkc p ((alistDel_sublist k nd).subset hp)
      have hnd' : ((alistDel k nd).map Prod.fst).Nodup := by
        rw [map_fst_alistDel]
        exact List.Nodup.erase k hnd
      have hperm' : List.Perm (rest.filterMap fun x => x.getattr key)
          ((alistDel k nd).map Prod.fst) := by
        rw [map_fst_alistDel]
        exact (hperm.trans (List.perm_cons_erase hkmem)).cons_inv
      have hrec := ih (alistDel k nd) hkc' hnd' hchar' hperm'
      simp only [update_db_loop, hk, hlk, hrec, if_pos hkm, hch]
      rfl


/-- Claim C2 (Reconciler idempotence): for every device state (live old
rows) and well-formed snapshot (a dict keyed consistently with its key
attribute), if `update_db` succeeds once, a second run on the same
snapshot — with `old_data` now being the live rows produced by the first
run — returns `(adds, changes, deletes) = (0, 0, 0)`. -/
theorem reconciler_idempotent (key : String) (dev : Nat) (olds : List HistRow)
    (nd : List (PyVal × SnapAttrs)) (res : UpdateOutcome)
    (hlive : ∀ r ∈ olds, r.isLive = true)
    (hkc : ∀ p ∈ nd, alistGet key p.2 = some p.1)
    (hnd : (nd.map Prod.fst).Nodup)
    (hrun : HistoryTablePersister.update_db key dev olds nd = some res) :
    (HistoryTablePersister.update_db key dev res.liveRows nd).map
        (fun r => (r.adds, r.changes, r.deletes)) = some (0, 0, 0) := by
  obtain ⟨hchar, hperm⟩ := update_db_char key dev olds nd res hlive hkc hnd hrun
  have h2 := update_db_loop_run2 key dev res.liveRows nd hkc hnd hchar hperm
  unfold HistoryTablePersister.update_db
  rw [h2]
  rfl

/-- Old rows of the C2 witness: one live interface. -/
def c2olds : List HistRow :=
  [⟨1, "t0", "Infinity", [("ifdescr", PyVal.str "ge-0"), ("ifspeed", PyVal.int 10)]⟩]

/-- Snapshot of the C2 witness: the interface with a changed speed, and a
brand-new interface. -/
def c2nd : List (PyVal × SnapAttrs) :=
  [(PyVal.str "ge-0", [("ifdescr", PyVal.str "ge-0"), ("ifspeed", PyVal.int 20)]),
   (PyVal.str "xe-1", [("ifdescr", PyVal.str "xe-1")])]

/-- The outcome of the first C2 run (one change, one add). -/
def c2res : UpdateOutcome :=
  (HistoryTablePersister.update_db "ifdescr" 1 c2olds c2nd).getD ⟨0, 0, 0, [], []⟩

/-- Witness for C2: rerunning on the live rows of the first run yields
zero counters. -/
theorem reconciler_idempotent_witness :
    (HistoryTablePersister.update_db "ifdescr" 1 (UpdateOutcome.liveRows c2res)
        c2nd).map (fun r => (r.adds, r.changes, r.deletes)) = some (0, 0, 0) :=
  reconciler_idempotent "ifdescr" 1 c2olds c2nd c2res (by decide) (by decide)
    (by decide) (by decide)

theorem update_db_loop_counts (key : String) (dev : Nat) :
    ∀ (olds : List HistRow) (nd : List (PyVal × SnapAttrs)) (st : LoopState),
      (∀ r ∈ olds, r.isLive = true) →
      update_db_loop key dev olds nd = some st →
      st.added.length = st.changes ∧
      olds.length = st.changes + st.deletes
        + (st.olds.filter fun x => x.isLive).length ∧
      nd.length = st.remaining.length + st.changes
        + (st.olds.filter fun x => x.isLive).length := by
  intro olds
  induction olds with
  | nil =>
      intro nd st hlive hrun
      simp only [update_db_loop, Option.some.injEq] at hrun
      subst hrun
      refine ⟨rfl, rfl, by simp⟩
  | cons old rest ih =>
      intro nd st hlive hrun
      have hlive' : ∀ r ∈ rest, r.isLive = true :=
        fun r hr => hlive r (List.mem_cons_of_mem _ hr)
      have holdlive : old.isLive = true := hlive old (List.mem_cons_self _ _)
      simp only [update_db_loop] at hrun
      cases hk : old.getattr key with
      | none => simp [hk] at hrun
      | some k =>
          simp only [hk] at hrun
          cases hlk : alistGet k nd with
          | some new =>
              simp only [hlk] at hrun
              by_cases hkm : key ∈ new.map Prod.fst
              · rw [if_pos hkm] at hrun
                cases hrec : update_db_loop key dev rest (alistDel k nd) with
                | none => simp [hrec] at hrun
                | some st' =>
                    simp only [hrec] at hrun
                    obtain ⟨ih1, ih2, ih3⟩ := ih (alistDel k nd) st' hlive' hrec
                    have hndlen : (alistDel k nd).length + 1 = nd.length :=
                      alistDel_length hlk
                    by_cases hch : rowChanged key old new = true
                    · rw [if_pos hch] at hrun
                      injection hrun with hrun
                      subst hrun
                      have hfc : ((old.close :: st'.olds).filter fun x => x.isLive)
                          = st'.olds.filter fun x => x.isLive := by
                        rw [List.filter_cons_of_neg]
                        simp [isLive_close]
                      refine ⟨?_, ?_, ?_⟩
                      · dsimp only
                        simp [ih1]
                      · dsimp only
                        rw [hfc]
                        simp only [List.length_cons]
                        omega
                      · dsimp only
                        rw [hfc]
                        omega
                    · rw [if_neg hch] at hrun
                      injection hrun with hrun
                      subst hrun
                      have hfc : ((old :: st'.olds).filter fun x => x.isLive)
                          = old :: (st'.olds.filter fun x => x.isLive) :=
                        List.filter_cons_of_pos holdlive
                      refine ⟨?_, ?_, ?_⟩
                      · dsimp only
                        exact ih1
                      · dsimp only
                        rw [hfc]
                        simp only [List.length_cons]
                        omega
                      · dsimp only
                        rw [hfc]
                        simp only [List.length_cons]
                        omega
              · rw [if_neg hkm] at hrun
                exact absurd hrun (by simp)
          | none =>
              simp only [hlk] at hrun
              cases hrec : update_db_loop key dev rest nd with
              | none => simp [hrec] at hrun
              | some st' =>
                  simp only [hrec] at hrun
                  injection hrun with hrun
                  subst hrun
                  obtain ⟨ih1, ih2, ih3⟩ := ih nd st' hlive' hrec
                  have hfc : ((old.close :: st'.olds).filter fun x => x.isLive)
                      = st'.olds.filter fun x => x.isLive := by
                    rw [List.filter_cons_of_neg]
                    simp [isLive_close]
                  refine ⟨?_, ?_, ?_⟩
                  · dsimp only
                    exact ih1
                  · dsimp only
                    rw [hfc]
                    simp only [List.length_cons]
                    omega
                  · dsimp only
                    rw [hfc]
                    omega

/-- Claim C9 (Diff-count partition): in every successful `update_db` run
on live old rows, the rows added to the session number exactly
`adds + changes`; the old rows partition into changed, deleted and
untouched-live (an old row whose matching entry has no differing
attribute stays live and is counted by none of the counters); and the
snapshot entries partition into added, changed and matched-unchanged —
so each entity contributes to at most one of the three counters. -/
theorem diff_count_partition (key : String) (dev : Nat) (olds : List HistRow)
    (nd : List (PyVal × SnapAttrs)) (res : UpdateOutcome)
    (hlive : ∀ r ∈ olds, r.isLive = true)
    (hrun : HistoryTablePersister.update_db key dev olds nd = some res) :
    res.added.length = res.adds + res.changes ∧
    olds.length = res.changes + res.deletes
      + (res.olds.filter fun x => x.isLive).length ∧
    nd.length = res.adds + res.changes
      + (res.olds.filter fun x => x.isLive).length := by
  unfold HistoryTablePersister.update_db at hrun
  cases hst : update_db_loop key dev olds nd with
  | none => rw [hst] at hrun; exact absurd hrun (by simp)
  | some st =>
      rw [hst] at hrun
      injection hrun with hrun
      subst hrun
      obtain ⟨h1, h2, h3⟩ := update_db_loop_counts key dev olds nd st hlive hst
      refine ⟨?_, ?_, ?_⟩
      · dsimp only
        rw [List.length_append, List.length_map]
        omega
      · dsimp only
        exact h2
      · dsimp only
        omega

/-- Old rows of the C9 witness: one matched-unchanged interface and one
vanished interface. -/
def c9olds : List HistRow :=
  [⟨2, "t0", "Infinity", [("ifdescr", PyVal.str "ge-0"), ("ifspeed", PyVal.int 10)]⟩,
   ⟨2, "t0", "Infinity", [("ifdescr", PyVal.str "ge-9")]⟩]

/-- Snapshot of the C9 witness. -/
def c9nd : List (PyVal × SnapAttrs) :=
  [(PyVal.str "ge-0", [("ifdescr", PyVal.str "ge-0"), ("ifspeed", PyVal.int 10)])]

/-- The outcome of the C9 witness run (one delete, no adds/changes). -/
def c9res : UpdateOutcome :=
  (HistoryTablePersister.update_db "ifdescr" 2 c9olds c9nd).getD ⟨0, 0, 0, [], []⟩

/-- Witness for C9 at the concrete run. -/
theorem diff_count_partition_witness :
    c9res.added.length = c9res.adds + c9res.changes ∧
    c9olds.length = c9res.changes + c9res.deletes
      + (c9res.olds.filter fun x => x.isLive).length ∧
    c9nd.length = c9res.adds + c9res.changes
      + (c9res.olds.filter fun x => x.isLive).length :=
  diff_count_partition "ifdescr" 2 c9olds c9nd c9res (by decide) (by decide)

/-- Claim C10 (Unknown-attribute tolerance): when the new attribute
dictionary of a matched entity contains attribute names the old row
object does not have, those attributes are logged and excluded from the
comparison, so — provided every attribute the old row does have agrees —
the row is not counted as changed, is not rewritten, and the run reports
`(0, 0, 0)`. -/
theorem unknown_attr_tolerance (key : String) (dev : Nat) (r : HistRow)
    (k : PyVal) (m : SnapAttrs)
    (hkey : r.getattr key = some k)
    (hkm : alistGet key m = some k)
    (hagree : ∀ a ∈ (m.map Prod.fst).erase key,
        (r.getattr a).isSome = true → alistGet a m = r.getattr a) :
    HistoryTablePersister.update_db key dev [r] [(k, m)]
      = some ⟨0, 0, 0, [r], []⟩ := by
  have hch : rowChanged key r m = false := by
    unfold rowChanged
    rw [List.any_eq_false]
    intro a ha
    cases hg : r.getattr a with
    | none => simp [hg]
    | some v =>
        have hmv : alistGet a m = some v := by
          rw [hagree a ha (by rw [hg]; rfl), hg]
        simp [hg, hmv]
  have hlk : alistGet k [(k, m)] = some m := by simp [alistGet]
  have hdel : alistDel k [(k, m)] = [] := by simp [alistDel]
  have hmemkeys : key ∈ m.map Prod.fst := alistGet_mem_keys hkm
  unfold HistoryTablePersister.update_db
  simp only [update_db_loop, hkey, hlk, hdel, if_pos hmemkeys, hch]
  rfl

/-- The old row of the C10 witness. -/
def c10row : HistRow :=
  ⟨3, "t0", "Infinity", [("ifdescr", PyVal.str "ge-0"), ("ifspeed", PyVal.int 10)]⟩

/-- The matched dictionary of the C10 witness: it agrees on the shared
attributes and carries an attribute `newattr` the row does not have. -/
def c10m : SnapAttrs :=
  [("ifdescr", PyVal.str "ge-0"), ("ifspeed", PyVal.int 10),
   ("newattr", PyVal.str "x")]

/-- Witness for C10 at the concrete row and dictionary. -/
theorem unknown_attr_tolerance_witness :
    HistoryTablePersister.update_db "ifdescr" 3 [c10row] [(PyVal.str "ge-0", c10m)]
      = some ⟨0, 0, 0, [c10row], []⟩ :=
  unknown_attr_tolerance "ifdescr" 3 c10row (PyVal.str "ge-0") c10m
    (by decide) (by decide) (by decide)

end Esxsnmp
